import Mathlib

/-!
Shallow embedding of the cache-probe program (`src/main.cpp`) and proofs about
its breakpoint detectors, measurement aggregation, sweep grids and the
random-cycle working-set builder.

Conventions of the embedding:
* `double` values are modelled as `ℚ`; the literal constants `1.35`, `1.18`,
  `0.98`, `1.30`, `1.15` become the rationals `27/20`, `59/50`, `49/50`,
  `13/10`, `23/20`.
* `std::vector<SizePoint>` becomes `List SizePoint`; indexed reads `pts[i]`
  inside loops whose guards keep `i` in range become `List.getD i default`.
* Wall-clock time cannot be embedded, so each measurement routine is
  parametrised by an oracle giving the per-trial ns-per-access value; the
  embedding keeps the routine's control flow (allocation-failure exits,
  degenerate-count exits) and its aggregation of the per-trial values.
* `std::nth_element` followed by reads of `v[n/2]` and of
  `max_element(v.begin(), v.begin()+n/2)` is modelled through the sorted
  permutation of the list: after `nth_element(v.begin(), v.begin()+n/2, v.end())`
  the element at `n/2` is the `n/2`-th order statistic and the first `n/2`
  elements are (as a multiset) `n/2` elements that are all `≤` it, so the
  embedding sorts and takes the maximum of the first half.
-/

/-- One measurement point: swept parameter (bytes or count) and measured
latency in ns per access (`struct SizePoint` in src/main.cpp:32). -/
structure SizePoint where
  bytes : ℕ
  ns_per_access : ℚ
deriving DecidableEq, Repr

instance : Inhabited SizePoint := ⟨⟨0, 0⟩⟩

/-- The sorted permutation of a list of rationals; stands for the ordering
information that `std::nth_element` establishes in `median`. -/
def sortQ (v : List ℚ) : List ℚ := v.insertionSort (· ≤ ·)

/-- Value of `*std::max_element(first, last)` on a modelled range: the first
maximal element, `0` on an empty range (never used on one by `median`). -/
def maxQ : List ℚ → ℚ
  | [] => 0
  | a :: l => l.foldl max a

/-- Embedding of `median` (src/main.cpp:37): `0` on the empty vector, the
`n/2`-th order statistic for odd `n`, and for even `n` the average of the
`n/2`-th order statistic with the maximum of the lower half. -/
def median (v : List ℚ) : ℚ :=
  if v.length = 0 then 0
  else
    let s := sortQ v
    let n := v.length
    let m := s.getD (n / 2) 0
    if n % 2 = 0 then (m + maxQ (s.take (n / 2))) * (1/2)
    else m

/-- Baseline of the strict detector: median of the first `min 8 n` latencies
(src/main.cpp:52-56). -/
def baseLatency (pts : List SizePoint) : ℚ :=
  median ((pts.take (min 8 pts.length)).map SizePoint.ns_per_access)

/-- Loop-body condition of `detect_jump_bytes` at index `i` (src/main.cpp:66-75):
the dual jump test against baseline (×1.35) and predecessor (×1.18), plus the
three confirmation points staying at or above `base * 1.35 * 0.98`. -/
def jumpCondB (pts : List SizePoint) (base : ℚ) (i : ℕ) : Bool :=
  let cur := (pts.getD i default).ns_per_access
  let prev := (pts.getD (i-1) default).ns_per_access
  decide (base * (27/20) ≤ cur) && decide (prev * (59/50) ≤ cur) &&
    ((List.range 3).all fun k =>
      decide (base * (27/20 * (49/50)) ≤ (pts.getD (i+1+k) default).ns_per_access))

/-- Embedding of `detect_jump_bytes` (src/main.cpp:49): `0` for fewer than 10
points; otherwise scan `i = 1, 2, …` while `i + 3 < n` and return the bytes of
the point before the first index passing `jumpCondB`, or `0` if none does. -/
def detect_jump_bytes (pts : List SizePoint) : ℕ :=
  if pts.length < 10 then 0
  else
    match (List.range pts.length).find?
        (fun i => decide (1 ≤ i) && decide (i + 3 < pts.length)
          && jumpCondB pts (baseLatency pts) i) with
    | some i => (pts.getD (i - 1) default).bytes
    | none => 0

/-- Loop-body condition of `detect_jump_bytes_relaxed` at index `i`
(src/main.cpp:90): strictly above `baseline * 1.30` and `prev * 1.15`. -/
def relaxedCondB (pts : List SizePoint) (baseline : ℚ) (i : ℕ) : Bool :=
  let cur := (pts.getD i default).ns_per_access
  let prev := (pts.getD (i-1) default).ns_per_access
  decide (baseline * (13/10) < cur) && decide (prev * (23/20) < cur)

/-- One step of `std::max_element`'s scan with the program's comparator
`a.ns_per_access < b.ns_per_access`: keep the current candidate unless the
next point's latency is strictly larger. -/
def maxStep (acc : Option SizePoint) (p : SizePoint) : Option SizePoint :=
  match acc with
  | none => some p
  | some m => if m.ns_per_access < p.ns_per_access then some p else some m

/-- Value of `std::max_element(pts.begin(), pts.end(), cmp-by-latency)`
(src/main.cpp:97-99): the first point of maximal latency, `none` on an empty
sequence — where the C++ code would dereference the past-the-end iterator. -/
def max_element (pts : List SizePoint) : Option SizePoint :=
  pts.foldl maxStep none

/-- Scan loop of `detect_jump_bytes_relaxed` (src/main.cpp:85-94): value of
`estimated` after the loop — the bytes of the first index `i ≥ 1` passing
`relaxedCondB`, or the initial `0` when no index does. -/
def relaxedScan (pts : List SizePoint) : ℕ :=
  match (List.range pts.length).find?
      (fun i => decide (1 ≤ i) && relaxedCondB pts (pts.getD 0 default).ns_per_access i) with
  | some i => (pts.getD i default).bytes
  | none => 0

/-- Embedding of `detect_jump_bytes_relaxed` (src/main.cpp:81). The returned
value is wrapped in `Option`: `none` marks the undefined dereference the C++
code performs when the maximum-latency fallback runs on an empty sequence. -/
def detect_jump_bytes_relaxed (pts : List SizePoint) : Option ℕ :=
  if relaxedScan pts = 0 then (max_element pts).map SizePoint.bytes
  else some (relaxedScan pts)

/-- Embedding of the `add_range` lambda of `make_sizes_grid`
(src/main.cpp:108-111): sizes `fromKB, fromKB+stepKB, …` up to `toKB`
kibibytes, each converted to bytes. -/
def add_range (fromKB toKB stepKB : ℕ) : List ℕ :=
  (List.range ((toKB - fromKB) / stepKB + 1)).map (fun j => (fromKB + j * stepKB) * 1024)

/-- Embedding of `make_sizes_grid` (src/main.cpp:105): the hand-tuned
piecewise size grid 2..32 KB step 2, 40..128 step 8, 160..512 step 32,
576..1024 step 64. -/
def make_sizes_grid : List ℕ :=
  add_range 2 32 2 ++ add_range 40 128 8 ++ add_range 160 512 32 ++ add_range 576 1024 64

/-- Embedding of `align_up` (src/main.cpp:137): rounds `x` up to a multiple of
`align`. The source uses the bit mask `(x + align - 1) & ~(align - 1)`, which
for the power-of-two alignments it is invoked with equals subtracting the
remainder of `x + align - 1` modulo `align`. -/
def align_up (x align : ℕ) : ℕ := (x + align - 1) - (x + align - 1) % align

/-- Slot count of the size probe's working set (src/main.cpp:150):
`n = max(bytes / sizeof(uint32_t), 1024)` with `sizeof(uint32_t) = 4`. -/
def working_set_slots (bytes : ℕ) : ℕ := max (bytes / 4) 1024

/-- Embedding of `measure_ns_per_access_random_cycle` (src/main.cpp:145): a
working set of `working_set_slots bytes` uint32 slots is built and traversed;
each trial's timed interval is abstracted by the oracle `trialNs slots t`
(wall-clock time is external to the embedding), and the per-trial values are
reduced with `median`. -/
def measure_ns_per_access_random_cycle (bytes : ℕ) (trialNs : ℕ → ℕ → ℚ)
    (trials : ℕ) : ℚ :=
  median ((List.range trials).map (trialNs (working_set_slots bytes)))

/-- Embedding of `measure_set_conflict_ns_per_access` (src/main.cpp:200):
returns `0.0` immediately when `posix_memalign` fails (modelled by the
`allocFailed` flag), otherwise the median of the per-trial values. -/
def measure_set_conflict_ns_per_access (allocFailed : Bool) (trialNs : ℕ → ℚ)
    (trials : ℕ) : ℚ :=
  if allocFailed then 0 else median ((List.range trials).map trialNs)

/-- Buffer size of `measure_stride` (src/main.cpp:286-287): `mib` mebibytes
rounded up to the page size. -/
def stride_bytes (mib page_size : ℕ) : ℕ := align_up (mib * 1024 * 1024) page_size

/-- Effective stride of `measure_stride` (src/main.cpp:300-302):
`max(stride, sizeof(Node))` aligned up to `alignof(Node)`, with
`sizeof(Node) = alignof(Node) = 8` on the 64-bit targets the program builds
for. -/
def stride_eff (stride : ℕ) : ℕ := align_up (max stride 8) 8

/-- Element count of `measure_stride`'s ring (src/main.cpp:304). -/
def stride_count (mib page_size stride : ℕ) : ℕ :=
  stride_bytes mib page_size / stride_eff stride

/-- Embedding of `measure_stride` (src/main.cpp:279): on `posix_memalign`
failure it returns `1`; with fewer than two ring elements it returns infinity
(`⊤`); otherwise `best_ns_per` starts at infinity and each trial lowers it
with `min`, so the result is the minimum per-trial value. The single warmup
traversal precedes the trials and does not affect the returned value. -/
def measure_stride (allocFailed : Bool) (mib page_size stride : ℕ)
    (trialNs : ℕ → ℚ) (trials : ℕ) : WithTop ℚ :=
  if allocFailed then ((1 : ℚ) : WithTop ℚ)
  else if stride_count mib page_size stride < 2 then ⊤
  else (List.range trials).foldl (fun best t => min best ((trialNs t : ℚ) : WithTop ℚ)) ⊤

/-- Point sequence of the associativity sweep (src/main.cpp:263-267): one
point per candidate way-count `k = 1, …, 32`, with `ns k` the measured
latency; the loop body has no break, every candidate is measured. -/
def assocSweepPoints (ns : ℕ → ℚ) : List SizePoint :=
  (List.range 32).map (fun j => ⟨j + 1, ns (j + 1)⟩)

/-- Embedding of `detect_associativity_L1` (src/main.cpp:251): sweep all 32
candidates, then run the strict detector on the full sequence. -/
def detect_associativity_L1 (ns : ℕ → ℚ) : ℕ :=
  detect_jump_bytes (assocSweepPoints ns)

/-- Point sequence of the size sweep (src/main.cpp:187-191) with the measured
latency at each grid size given by `lat`. -/
def sizeSweepPoints (lat : ℕ → ℚ) : List SizePoint :=
  make_sizes_grid.map (fun b => ⟨b, lat b⟩)

/-- Synthetic latency of the end-to-end scenario: 1 ns per access at or below
32 KiB, 4 ns above. -/
def synthLatency (bytes : ℕ) : ℚ := if bytes ≤ 32768 then 1 else 4

/-- Synthetic associativity latency growing linearly with the way-count
beyond way 8: 1 ns up to 8 ways, then `k - 7` ns at `k` ways. -/
def linGrowth (k : ℕ) : ℚ := if k ≤ 8 then 1 else (k : ℚ) - 7

/-- Active slots of the size probe's working set (src/main.cpp:123-125): the
indices `0, step, 2·step, …` below `n`, in increasing order. -/
def activeIdx (n step : ℕ) : List ℕ :=
  (List.range n).filter (fun i => i % step == 0)

/-- Link-writing loop of `build_random_cycle` (src/main.cpp:130-131) as
explicit state passing on the `next` map: `next[idx[k]] := idx[k+1]` along the
shuffled list and `next[idx.back()] := first` at its end. -/
def linkChain (next : ℕ → ℕ) (first : ℕ) : List ℕ → (ℕ → ℕ)
  | [] => next
  | [a] => fun j => if j = a then first else next j
  | a :: b :: rest => linkChain (fun j => if j = a then b else next j) first (b :: rest)

/-- Embedding of `build_random_cycle` (src/main.cpp:121) as the final `next`
map. `idx` stands for the shuffled list of active slots (`std::shuffle` with
the fixed mt19937 seed is abstracted as a parameter; every theorem assumes
only that it permutes `activeIdx n step`). Non-active slots below `n` are
overwritten with their own index by the final loop (src/main.cpp:133-134). -/
def build_random_cycle (n step : ℕ) (idx : List ℕ) : ℕ → ℕ :=
  let linked : ℕ → ℕ :=
    match idx with
    | [] => fun _ => 0
    | a :: _ => linkChain (fun _ => 0) a idx
  fun i => if i < n ∧ i % step ≠ 0 then i else linked i

/-- Confirmed jump of the strict detector at index `i`, stated from the
claim: `i ≥ 1`, the three look-ahead points exist, latency reaches `1.35×`
the baseline and `1.18×` the predecessor, and each of the next 3 points stays
at or above `baseline × (1.35 × 0.98)`. -/
def IsConfirmedJump (pts : List SizePoint) (i : ℕ) : Prop :=
  1 ≤ i ∧ i + 3 < pts.length ∧
  baseLatency pts * (27/20) ≤ (pts.getD i default).ns_per_access ∧
  (pts.getD (i-1) default).ns_per_access * (59/50) ≤ (pts.getD i default).ns_per_access ∧
  ∀ k, k < 3 → baseLatency pts * (27/20 * (49/50)) ≤ (pts.getD (i+1+k) default).ns_per_access

instance (pts : List SizePoint) (i : ℕ) : Decidable (IsConfirmedJump pts i) := by
  unfold IsConfirmedJump; infer_instance

/-- Jump of the relaxed detector at index `i`, stated from the claim:
`i ≥ 1`, the point exists, and its latency strictly exceeds `1.30×` the first
point's latency and `1.15×` the predecessor's. -/
def RelaxedJump (pts : List SizePoint) (i : ℕ) : Prop :=
  1 ≤ i ∧ i < pts.length ∧
  (pts.getD 0 default).ns_per_access * (13/10) < (pts.getD i default).ns_per_access ∧
  (pts.getD (i-1) default).ns_per_access * (23/20) < (pts.getD i default).ns_per_access

instance (pts : List SizePoint) (i : ℕ) : Decidable (RelaxedJump pts i) := by
  unfold RelaxedJump; infer_instance

/-! ### Helper lemmas -/

theorem find?_range_eq_none_of {p : ℕ → Bool} {n : ℕ} (h : ∀ i, i < n → ¬ p i) :
    (List.range n).find? p = none :=
  List.find?_eq_none.2 fun x hx => h x (List.mem_range.1 hx)

theorem find?_range_eq_some_of {p : ℕ → Bool} {n i : ℕ} (hin : i < n) (hp : p i)
    (hmin : ∀ j, j < i → ¬ p j) : (List.range n).find? p = some i := by
  induction n with
  | zero => omega
  | succ n ih =>
    rw [List.range_succ, List.find?_append]
    by_cases h : i < n
    · rw [ih h]; rfl
    · have hi : i = n := by omega
      subst hi
      rw [find?_range_eq_none_of hmin]
      simp [hp]

theorem foldl_max_le_head (l : List ℚ) (a b : ℚ) (hab : a ≤ b) :
    l.foldl max a ≤ l.foldl max b := by
  induction l generalizing a b with
  | nil => exact hab
  | cons c t ih => exact ih _ _ (max_le_max hab le_rfl)

theorem maxQ_sorted_take (l : List ℚ) (hs : List.Sorted (· ≤ ·) l) :
    ∀ k, k < l.length → maxQ (l.take (k+1)) = l.getD k 0 := by
  induction l with
  | nil => intro k hk; simp at hk
  | cons a t ih =>
    intro k hk
    cases k with
    | zero => simp [maxQ]
    | succ k =>
      cases t with
      | nil => simp at hk
      | cons b t' =>
        have hab : a ≤ b := (List.sorted_cons.1 hs).1 b (by simp)
        have hstep : maxQ (a :: b :: List.take k t') = maxQ (b :: List.take k t') := by
          simp only [maxQ, List.foldl_cons]
          rw [max_eq_right hab]
        simp only [List.take_succ_cons]
        rw [hstep]
        have := ih (List.sorted_cons.1 hs).2 k (by simpa using hk)
        simpa using this

theorem foldl_min_q (l : List ℚ) (a b : ℚ) :
    l.foldl min (min a b) = min a (l.foldl min b) := by
  induction l generalizing b with
  | nil => rfl
  | cons c t ih =>
    simp only [List.foldl_cons]
    rw [min_assoc, ih]

theorem foldl_min_withTop_cons (a : ℚ) (t : List ℚ) (b : WithTop ℚ) :
    (a :: t).foldl (fun best x => min best ((x : ℚ) : WithTop ℚ)) b
      = min b ((t.foldl min a : ℚ) : WithTop ℚ) := by
  induction t generalizing a b with
  | nil => rfl
  | cons c t' ih =>
    have hstep : (a :: c :: t').foldl (fun best x => min best ((x : ℚ) : WithTop ℚ)) b
        = (c :: t').foldl (fun best x => min best ((x : ℚ) : WithTop ℚ)) (min b ↑a) := rfl
    rw [hstep, ih c (min b ↑a)]
    show min (min b ↑a) ↑(List.foldl min c t') = min b ↑(List.foldl min (min a c) t')
    rw [foldl_min_q, WithTop.coe_min, min_assoc]

theorem foldl_min_withTop (l : List ℚ) :
    l.foldl (fun best x => min best ((x : ℚ) : WithTop ℚ)) ⊤
      = (l.min?).elim ⊤ (fun m => ((m : ℚ) : WithTop ℚ)) := by
  cases l with
  | nil => rfl
  | cons a t =>
    rw [foldl_min_withTop_cons, min_eq_right le_top, List.min?_cons']
    rfl

theorem max_element_go (l : List SizePoint) (m : SizePoint) :
    ∃ p, l.foldl maxStep (some m) = some p ∧ (p = m ∨ p ∈ l) ∧
      m.ns_per_access ≤ p.ns_per_access ∧
      ∀ q ∈ l, q.ns_per_access ≤ p.ns_per_access := by
  induction l generalizing m with
  | nil => exact ⟨m, rfl, Or.inl rfl, le_rfl, by simp⟩
  | cons q t ih =>
    by_cases h : m.ns_per_access < q.ns_per_access
    · obtain ⟨p, hfold, hmem, hle, hall⟩ := ih q
      refine ⟨p, ?_, ?_, ?_, ?_⟩
      · simpa [maxStep, h] using hfold
      · rcases hmem with rfl | hp
        · exact Or.inr (by simp)
        · exact Or.inr (by simp [hp])
      · exact le_trans (le_of_lt h) hle
      · intro r hr
        rcases List.mem_cons.1 hr with rfl | hr
        · exact hle
        · exact hall r hr
    · obtain ⟨p, hfold, hmem, hle, hall⟩ := ih m
      refine ⟨p, ?_, ?_, hle, ?_⟩
      · simpa [maxStep, h] using hfold
      · rcases hmem with rfl | hp
        · exact Or.inl rfl
        · exact Or.inr (by simp [hp])
      · intro r hr
        rcases List.mem_cons.1 hr with rfl | hr
        · exact le_trans (not_lt.1 h) hle
        · exact hall r hr

theorem max_element_spec (pts : List SizePoint) (hne : pts ≠ []) :
    ∃ p, max_element pts = some p ∧ p ∈ pts ∧
      ∀ q ∈ pts, q.ns_per_access ≤ p.ns_per_access := by
  obtain ⟨a, t, rfl⟩ := List.exists_cons_of_ne_nil hne
  obtain ⟨p, hfold, hmem, hle, hall⟩ := max_element_go t a
  refine ⟨p, hfold, ?_, ?_⟩
  · rcases hmem with rfl | hp
    · exact List.mem_cons_self _ _
    · exact List.mem_cons_of_mem _ hp
  · intro q hq
    rcases List.mem_cons.1 hq with rfl | hq
    · exact hle
    · exact hall q hq

theorem jumpCondB_iff (pts : List SizePoint) (i : ℕ) :
    (decide (1 ≤ i) && decide (i + 3 < pts.length)
        && jumpCondB pts (baseLatency pts) i) = true
      ↔ IsConfirmedJump pts i := by
  simp only [jumpCondB, IsConfirmedJump, Bool.and_eq_true, decide_eq_true_eq,
    List.all_eq_true, List.mem_range, and_assoc]

theorem relaxedCondB_iff (pts : List SizePoint) (i : ℕ) :
    (decide (1 ≤ i)
        && relaxedCondB pts (pts.getD 0 default).ns_per_access i) = true
      ↔ (1 ≤ i ∧
          (pts.getD 0 default).ns_per_access * (13/10)
            < (pts.getD i default).ns_per_access ∧
          (pts.getD (i-1) default).ns_per_access * (23/20)
            < (pts.getD i default).ns_per_access) := by
  simp only [relaxedCondB, Bool.and_eq_true, decide_eq_true_eq, and_assoc]

theorem relaxedScan_eq_of_first (pts : List SizePoint) (i : ℕ)
    (hi : RelaxedJump pts i) (hmin : ∀ j, j < i → ¬ RelaxedJump pts j) :
    relaxedScan pts = (pts.getD i default).bytes := by
  obtain ⟨h1, hlen, hbase, hprev⟩ := hi
  unfold relaxedScan
  rw [find?_range_eq_some_of hlen ((relaxedCondB_iff pts i).2 ⟨h1, hbase, hprev⟩)]
  intro j hj hcond
  rcases (relaxedCondB_iff pts j).1 hcond with ⟨hj1, hbj, hpj⟩
  exact hmin j hj ⟨hj1, lt_trans hj hlen, hbj, hpj⟩

theorem relaxedScan_eq_zero (pts : List SizePoint)
    (h : ∀ i, i < pts.length → ¬ RelaxedJump pts i) : relaxedScan pts = 0 := by
  unfold relaxedScan
  rw [find?_range_eq_none_of]
  intro j hj hcond
  rcases (relaxedCondB_iff pts j).1 hcond with ⟨hj1, hbj, hpj⟩
  exact h j hj ⟨hj1, hj, hbj, hpj⟩

theorem linkChain_not_mem (l : List ℕ) (next : ℕ → ℕ) (first x : ℕ) (hx : x ∉ l) :
    linkChain next first l x = next x := by
  induction l generalizing next with
  | nil => rfl
  | cons a t ih =>
    cases t with
    | nil =>
      have hxa : x ≠ a := by simpa using hx
      simp [linkChain, hxa]
    | cons b t' =>
      have hxa : x ≠ a := fun h => hx (h ▸ List.mem_cons_self a (b :: t'))
      have hxt : x ∉ b :: t' := fun h => hx (List.mem_cons_of_mem a h)
      show linkChain (fun j => if j = a then b else next j) first (b :: t') x = next x
      rw [ih _ hxt]
      simp [hxa]

theorem linkChain_get (l : List ℕ) (next : ℕ → ℕ) (first : ℕ) (hnd : l.Nodup) :
    ∀ k, k + 1 < l.length → linkChain next first l (l.getD k 0) = l.getD (k+1) 0 := by
  induction l generalizing next with
  | nil => intro k hk; simp at hk
  | cons a t ih =>
    intro k hk
    cases t with
    | nil => simp at hk
    | cons b t' =>
      cases k with
      | zero =>
        have ha : a ∉ b :: t' := (List.nodup_cons.1 hnd).1
        show linkChain (fun j => if j = a then b else next j) first (b :: t') a
          = (b :: t').getD 0 0
        rw [linkChain_not_mem _ _ _ _ ha]
        simp
      | succ k =>
        show linkChain (fun j => if j = a then b else next j) first (b :: t')
            ((b :: t').getD k 0) = (b :: t').getD (k+1) 0
        exact ih _ (List.nodup_cons.1 hnd).2 k (by simpa using hk)

theorem linkChain_last (l : List ℕ) (next : ℕ → ℕ) (first : ℕ) (hnd : l.Nodup)
    (hne : l ≠ []) : linkChain next first l (l.getD (l.length - 1) 0) = first := by
  induction l generalizing next with
  | nil => exact absurd rfl hne
  | cons a t ih =>
    cases t with
    | nil => simp [linkChain]
    | cons b t' =>
      show linkChain (fun j => if j = a then b else next j) first (b :: t')
          ((a :: b :: t').getD ((a :: b :: t').length - 1) 0) = first
      have hlen : (a :: b :: t').length - 1 = ((b :: t').length - 1) + 1 := by
        simp [List.length_cons]
      rw [hlen]
      show linkChain (fun j => if j = a then b else next j) first (b :: t')
          ((b :: t').getD ((b :: t').length - 1) 0) = first
      exact ih _ (List.nodup_cons.1 hnd).2 (by simp)

theorem linkChain_cyclic (l : List ℕ) (next : ℕ → ℕ) (hnd : l.Nodup) (hne : l ≠ [])
    (k : ℕ) (hk : k < l.length) :
    linkChain next (l.getD 0 0) l (l.getD k 0) = l.getD ((k+1) % l.length) 0 := by
  by_cases h : k + 1 < l.length
  · rw [Nat.mod_eq_of_lt h]
    exact linkChain_get l next _ hnd k h
  · have hk1 : k = l.length - 1 := by omega
    have hmod : (k + 1) % l.length = 0 := by
      have : k + 1 = l.length := by
        have : 0 < l.length := List.length_pos.2 hne
        omega
      simp [this]
    rw [hmod, hk1]
    exact linkChain_last l next _ hnd hne

theorem getD_inj (l : List ℕ) (hl : l.Nodup) {i j : ℕ} (hi : i < l.length)
    (hj : j < l.length) (h : l.getD i 0 = l.getD j 0) : i = j := by
  rw [List.getD_eq_getElem _ _ hi, List.getD_eq_getElem _ _ hj] at h
  have hg : l.get ⟨i, hi⟩ = l.get ⟨j, hj⟩ := by simpa using h
  simpa using hl.get_inj_iff.1 hg

theorem activeIdx_nodup (n step : ℕ) : (activeIdx n step).Nodup :=
  (List.nodup_range n).filter _

theorem mem_activeIdx (n step x : ℕ) : x ∈ activeIdx n step ↔ x < n ∧ x % step = 0 := by
  simp [activeIdx, List.mem_filter, List.mem_range]

theorem activeIdx_ne_nil (n step : ℕ) (hn : 0 < n) : activeIdx n step ≠ [] :=
  List.ne_nil_of_mem ((mem_activeIdx n step 0).2 ⟨hn, Nat.zero_mod step⟩)

theorem build_step (n step : ℕ) (idx : List ℕ) (hnd : idx.Nodup)
    (hmul : ∀ a ∈ idx, a % step = 0) (hne : idx ≠ []) (k : ℕ) (hk : k < idx.length) :
    build_random_cycle n step idx (idx.getD k 0) = idx.getD ((k+1) % idx.length) 0 := by
  obtain ⟨a, t, rfl⟩ := List.exists_cons_of_ne_nil hne
  have hmem : (a :: t).getD k 0 ∈ a :: t := by
    rw [List.getD_eq_getElem _ _ hk]; exact List.getElem_mem _
  have hms : (a :: t).getD k 0 % step = 0 := hmul _ hmem
  show (if (a :: t).getD k 0 < n ∧ (a :: t).getD k 0 % step ≠ 0 then (a :: t).getD k 0
    else linkChain (fun _ => 0) a (a :: t) ((a :: t).getD k 0))
      = (a :: t).getD ((k+1) % (a :: t).length) 0
  rw [if_neg (fun hcon => hcon.2 hms)]
  exact linkChain_cyclic (a :: t) _ hnd (by simp) k hk

theorem build_iterate (n step : ℕ) (idx : List ℕ) (hnd : idx.Nodup)
    (hmul : ∀ a ∈ idx, a % step = 0) (hne : idx ≠ []) (k m : ℕ) (hk : k < idx.length) :
    (build_random_cycle n step idx)^[m] (idx.getD k 0)
      = idx.getD ((k + m) % idx.length) 0 := by
  induction m with
  | zero => simp [Nat.mod_eq_of_lt hk]
  | succ m ih =>
    rw [Function.iterate_succ_apply', ih]
    have hpos : 0 < idx.length := List.length_pos.2 hne
    rw [build_step n step idx hnd hmul hne _ (Nat.mod_lt _ hpos)]
    congr 1
    show ((k + m) % idx.length + 1) % idx.length = (k + (m + 1)) % idx.length
    have h1 : Nat.ModEq idx.length ((k + m) % idx.length + 1) ((k + m) + 1) :=
      Nat.ModEq.add_right 1 (Nat.mod_modEq _ _)
    calc ((k + m) % idx.length + 1) % idx.length
        = ((k + m) + 1) % idx.length := h1
      _ = (k + (m + 1)) % idx.length := by rw [Nat.add_assoc]

/-! ### Claim theorems -/

/-- C5: for every unit count `N ≥ 1`, `build_random_cycle` links the active
slots (indices `0, step, 2·step, …`) into a single cycle visiting all `N`
active units exactly once before returning to the start: following next-links
from any active slot returns to it after exactly `N` steps (and not earlier),
and every active slot is reached — no sub-cycles, no unreachable active
slots. `idx` is the shuffled order of the active slots, assumed only to be a
permutation of them. -/
theorem build_random_cycle_single_cycle (n step : ℕ) (idx : List ℕ) (a : ℕ)
    (hn : 0 < n) (hperm : List.Perm idx (activeIdx n step))
    (ha : a ∈ activeIdx n step) :
    (build_random_cycle n step idx)^[(activeIdx n step).length] a = a ∧
    (∀ m, 0 < m → m < (activeIdx n step).length →
      (build_random_cycle n step idx)^[m] a ≠ a) ∧
    (∀ b, b ∈ activeIdx n step → ∃ m, m < (activeIdx n step).length ∧
      (build_random_cycle n step idx)^[m] a = b) := by
  have hnd : idx.Nodup := hperm.nodup_iff.2 (activeIdx_nodup n step)
  have hmul : ∀ x ∈ idx, x % step = 0 := fun x hx =>
    ((mem_activeIdx n step x).1 (hperm.mem_iff.1 hx)).2
  have hL : idx.length = (activeIdx n step).length := hperm.length_eq
  have hne : idx ≠ [] := by
    intro h
    apply activeIdx_ne_nil n step hn
    apply List.length_eq_zero.1
    rw [← hL, h]
    rfl
  have hpos : 0 < idx.length := List.length_pos.2 hne
  have hai : a ∈ idx := hperm.mem_iff.2 ha
  obtain ⟨k, hk, hka⟩ := List.getElem_of_mem hai
  have hka' : idx.getD k 0 = a := by rw [List.getD_eq_getElem _ _ hk]; exact hka
  rw [← hL]
  refine ⟨?_, ?_, ?_⟩
  · rw [← hka', build_iterate n step idx hnd hmul hne k _ hk]
    congr 1
    rw [Nat.add_mod_right]
    exact Nat.mod_eq_of_lt hk
  · intro m hm0 hmL heq
    rw [← hka', build_iterate n step idx hnd hmul hne k _ hk] at heq
    have hidx : (k + m) % idx.length = k :=
      getD_inj idx hnd (Nat.mod_lt _ hpos) hk heq
    have hcong : Nat.ModEq idx.length (k + m) (k + 0) := by
      show (k + m) % idx.length = (k + 0) % idx.length
      rw [hidx, Nat.add_zero]
      exact (Nat.mod_eq_of_lt hk).symm
    have hdvd : idx.length ∣ m :=
      (Nat.modEq_zero_iff_dvd).1 (Nat.ModEq.add_left_cancel' k hcong)
    have := Nat.le_of_dvd hm0 hdvd
    omega
  · intro b hb
    have hbi : b ∈ idx := hperm.mem_iff.2 hb
    obtain ⟨j, hj, hjb⟩ := List.getElem_of_mem hbi
    refine ⟨(idx.length + j - k) % idx.length, Nat.mod_lt _ hpos, ?_⟩
    rw [← hka', build_iterate n step idx hnd hmul hne k _ hk]
    have h1 : Nat.ModEq idx.length (k + (idx.length + j - k) % idx.length)
        (k + (idx.length + j - k)) := Nat.ModEq.add_left k (Nat.mod_modEq _ _)
    have harith : (k + (idx.length + j - k) % idx.length) % idx.length = j := by
      calc (k + (idx.length + j - k) % idx.length) % idx.length
          = (k + (idx.length + j - k)) % idx.length := h1
        _ = (idx.length + j) % idx.length := by
            congr 1
            omega
        _ = j % idx.length := Nat.add_mod_left _ _
        _ = j := Nat.mod_eq_of_lt hj
    rw [harith, List.getD_eq_getElem _ _ hj]
    exact hjb

/-- C5 witness: the concrete instance `n = 64`, `step = 16`, shuffled active
slots `[32, 0, 48, 16]`, start slot `16`. -/
theorem build_random_cycle_single_cycle_witness :
    (build_random_cycle 64 16 [32, 0, 48, 16])^[(activeIdx 64 16).length] 16 = 16 ∧
    (∀ m, 0 < m → m < (activeIdx 64 16).length →
      (build_random_cycle 64 16 [32, 0, 48, 16])^[m] 16 ≠ 16) ∧
    (∀ b, b ∈ activeIdx 64 16 → ∃ m, m < (activeIdx 64 16).length ∧
      (build_random_cycle 64 16 [32, 0, 48, 16])^[m] 16 = b) :=
  build_random_cycle_single_cycle 64 16 [32, 0, 48, 16] 16 (by decide) (by decide)
    (by decide)

/-- C1: the strict detector returns the bytes of the point immediately before
the first confirmed jump — `i ≥ 1`, latency at least `1.35×` the baseline
(median of the first `min 8 n` latencies) and `1.18×` the predecessor, each
of the next 3 points at or above `baseline × (1.35 × 0.98)` — and returns `0`
("not detected"), never a best guess, when the sequence has fewer than 10
points or no jump is confirmed. -/
theorem detect_jump_bytes_correct (pts : List SizePoint) :
    ((pts.length < 10 ∨ ∀ i, i < pts.length → ¬ IsConfirmedJump pts i) →
      detect_jump_bytes pts = 0) ∧
    (∀ i, 10 ≤ pts.length → IsConfirmedJump pts i →
      (∀ j, j < i → ¬ IsConfirmedJump pts j) →
      detect_jump_bytes pts = (pts.getD (i - 1) default).bytes) := by
  constructor
  · rintro (h | h)
    · unfold detect_jump_bytes
      rw [if_pos h]
    · unfold detect_jump_bytes
      by_cases h10 : pts.length < 10
      · rw [if_pos h10]
      · rw [if_neg h10, find?_range_eq_none_of]
        intro j hj hcond
        exact h j hj ((jumpCondB_iff pts j).1 hcond)
  · intro i h10 hc hmin
    have hilen : i < pts.length := by
      have := hc.2.1
      omega
    have hfind := find?_range_eq_some_of hilen ((jumpCondB_iff pts i).2 hc)
      (fun j hj hcond => hmin j hj ((jumpCondB_iff pts j).1 hcond))
    unfold detect_jump_bytes
    rw [if_neg (by omega), hfind]

/-- C1 witness: the empty sequence yields 0, and a 14-point sequence that is
flat at 1 ns up to parameter 8 and at 4 ns beyond yields the last fast
parameter 8. -/
theorem detect_jump_bytes_correct_witness :
    detect_jump_bytes [] = 0 ∧
    detect_jump_bytes [⟨1,1⟩, ⟨2,1⟩, ⟨3,1⟩, ⟨4,1⟩, ⟨5,1⟩, ⟨6,1⟩, ⟨7,1⟩, ⟨8,1⟩,
      ⟨9,4⟩, ⟨10,4⟩, ⟨11,4⟩, ⟨12,4⟩, ⟨13,4⟩, ⟨14,4⟩] = 8 := by
  constructor
  · exact (detect_jump_bytes_correct []).1 (Or.inl (by decide))
  · have h := (detect_jump_bytes_correct
        [⟨1,1⟩, ⟨2,1⟩, ⟨3,1⟩, ⟨4,1⟩, ⟨5,1⟩, ⟨6,1⟩, ⟨7,1⟩, ⟨8,1⟩,
         ⟨9,4⟩, ⟨10,4⟩, ⟨11,4⟩, ⟨12,4⟩, ⟨13,4⟩, ⟨14,4⟩]).2 8
      (by decide) (by with_unfolding_all decide) (by with_unfolding_all decide)
    simpa using h

/-- C2 counterexample: the relaxed detector does not always return a non-zero
answer — on the empty sequence the fallback dereferences the past-the-end
iterator (modelled as `none`), and on a one-point sequence whose parameter is
0 it returns 0. -/
theorem relaxed_nonzero_guarantee_fails :
    detect_jump_bytes_relaxed [] = none ∧
    detect_jump_bytes_relaxed [⟨0, 1⟩] = some 0 := by
  exact ⟨rfl, by with_unfolding_all decide⟩

/-- C2 (amended): for every non-empty sequence whose parameters are all
non-zero, the relaxed detector returns the first point whose latency exceeds
`1.30×` the first point's latency and `1.15×` its predecessor's — reporting
that point's own parameter — and otherwise falls back to the parameter of the
(first) maximum-latency point, so the answer is always non-zero. -/
theorem detect_relaxed_correct (pts : List SizePoint) (hne : pts ≠ [])
    (hbz : ∀ p ∈ pts, p.bytes ≠ 0) :
    (∀ i, RelaxedJump pts i → (∀ j, j < i → ¬ RelaxedJump pts j) →
      detect_jump_bytes_relaxed pts = some (pts.getD i default).bytes) ∧
    ((∀ i, i < pts.length → ¬ RelaxedJump pts i) →
      ∃ p, max_element pts = some p ∧ p ∈ pts ∧
        (∀ q ∈ pts, q.ns_per_access ≤ p.ns_per_access) ∧
        detect_jump_bytes_relaxed pts = some p.bytes) ∧
    (∀ r, detect_jump_bytes_relaxed pts = some r → r ≠ 0) := by
  refine ⟨?_, ?_, ?_⟩
  · intro i hi hmin
    have hscan := relaxedScan_eq_of_first pts i hi hmin
    have hmem : pts.getD i default ∈ pts := by
      rw [List.getD_eq_getElem _ _ hi.2.1]
      exact List.getElem_mem _
    have hnz : (pts.getD i default).bytes ≠ 0 := hbz _ hmem
    unfold detect_jump_bytes_relaxed
    rw [hscan, if_neg hnz]
  · intro hno
    obtain ⟨p, hmax, hpmem, hall⟩ := max_element_spec pts hne
    refine ⟨p, hmax, hpmem, hall, ?_⟩
    have hscan := relaxedScan_eq_zero pts hno
    unfold detect_jump_bytes_relaxed
    rw [hscan, if_pos rfl, hmax]
    rfl
  · intro r hr
    by_cases hz : relaxedScan pts = 0
    · unfold detect_jump_bytes_relaxed at hr
      rw [hz, if_pos rfl] at hr
      obtain ⟨p, hmax, hpmem, _⟩ := max_element_spec pts hne
      rw [hmax] at hr
      have hrp : r = p.bytes := by simpa using hr.symm
      rw [hrp]
      exact hbz p hpmem
    · unfold detect_jump_bytes_relaxed at hr
      rw [if_neg hz] at hr
      have hrs : r = relaxedScan pts := by simpa using hr.symm
      omega

/-- C2 witness: on `[(8,1), (16,2)]` the jump at index 1 reports parameter
16; on the flat `[(8,1), (16,1)]` the fallback reports the first maximal
point's parameter 8. -/
theorem detect_relaxed_correct_witness :
    detect_jump_bytes_relaxed [⟨8, 1⟩, ⟨16, 2⟩] = some 16 ∧
    detect_jump_bytes_relaxed [⟨8, 1⟩, ⟨16, 1⟩] = some 8 := by
  constructor
  · have h := (detect_relaxed_correct [⟨8, 1⟩, ⟨16, 2⟩] (by simp)
        (by with_unfolding_all decide)).1 1
      (by with_unfolding_all decide) (by with_unfolding_all decide)
    simpa using h
  · obtain ⟨p, hmax, hp, hall, hres⟩ := (detect_relaxed_correct [⟨8, 1⟩, ⟨16, 1⟩]
        (by simp) (by with_unfolding_all decide)).2.1 (by with_unfolding_all decide)
    have hm : max_element [⟨8, 1⟩, ⟨16, 1⟩] = some (⟨8, 1⟩ : SizePoint) := by
      with_unfolding_all decide
    rw [hm] at hmax
    have hpe : p = ⟨8, 1⟩ := (Option.some_inj.1 hmax).symm
    rw [hres, hpe]

/-- C9 counterexample: on the empty sequence the maximum-latency lookup has no
point to return (`std::max_element` yields the past-the-end iterator, which
the C++ code dereferences), so the relaxed detector is not total there. -/
theorem relaxed_fallback_empty_reads_no_point :
    max_element [] = none ∧ detect_jump_bytes_relaxed [] = none := ⟨rfl, rfl⟩

/-- C9 (amended): on every non-empty sequence the relaxed detector is total
and its maximum-latency fallback reads an existing point of the sequence; on
the empty sequence the C++ code dereferences the past-the-end iterator. -/
theorem detect_relaxed_total_on_nonempty (pts : List SizePoint) (h : pts ≠ []) :
    (detect_jump_bytes_relaxed pts).isSome = true ∧
    ∃ p, max_element pts = some p ∧ p ∈ pts := by
  obtain ⟨p, hmax, hpmem, _⟩ := max_element_spec pts h
  constructor
  · unfold detect_jump_bytes_relaxed
    by_cases hz : relaxedScan pts = 0
    · rw [hz, if_pos rfl, hmax]
      rfl
    · rw [if_neg hz]
      rfl
  · exact ⟨p, hmax, hpmem⟩

/-- C9 witness: the singleton sequence `[(8,1)]`. -/
theorem detect_relaxed_total_on_nonempty_witness :
    (detect_jump_bytes_relaxed [⟨8, 1⟩]).isSome = true ∧
    ∃ p, max_element [⟨8, 1⟩] = some p ∧ p ∈ [(⟨8, 1⟩ : SizePoint)] :=
  detect_relaxed_total_on_nonempty [⟨8, 1⟩] (by simp)

/-- C8: on every non-empty list, `median` returns the middle element of the
sorted list for odd length, and for even length the average of the sorted
element at index `n/2` with the sorted element at index `n/2 - 1` (the
largest element of the lower half) — the mean of the two middle elements. -/
theorem median_returns_middle (v : List ℚ) (h : v ≠ []) :
    (v.length % 2 = 1 → median v = (sortQ v).getD (v.length / 2) 0) ∧
    (v.length % 2 = 0 →
      median v = ((sortQ v).getD (v.length / 2) 0
        + (sortQ v).getD (v.length / 2 - 1) 0) / 2) := by
  have hlen : (sortQ v).length = v.length := (List.perm_insertionSort _ v).length_eq
  have hs : List.Sorted (· ≤ ·) (sortQ v) := List.sorted_insertionSort _ v
  have hne : ¬ v.length = 0 := fun h0 => h (List.length_eq_zero.1 h0)
  constructor
  · intro hodd
    unfold median
    rw [if_neg hne]
    show (if v.length % 2 = 0 then _ else (sortQ v).getD (v.length / 2) 0)
      = (sortQ v).getD (v.length / 2) 0
    rw [if_neg (by omega)]
  · intro heven
    unfold median
    rw [if_neg hne]
    show (if v.length % 2 = 0
        then ((sortQ v).getD (v.length / 2) 0
          + maxQ ((sortQ v).take (v.length / 2))) * (1/2)
        else _)
      = ((sortQ v).getD (v.length / 2) 0 + (sortQ v).getD (v.length / 2 - 1) 0) / 2
    rw [if_pos heven]
    have h2 : 1 ≤ v.length / 2 := by omega
    have hmx : maxQ ((sortQ v).take (v.length / 2))
        = (sortQ v).getD (v.length / 2 - 1) 0 := by
      have hh := maxQ_sorted_take (sortQ v) hs (v.length / 2 - 1) (by omega)
      rwa [Nat.sub_add_cancel h2] at hh
    rw [hmx]
    ring

/-- C8 witness: `median [3, 1, 2, 5] = (2 + 3) / 2 = 5/2`. -/
theorem median_returns_middle_witness : median [(3:ℚ), 1, 2, 5] = 5/2 := by
  rw [(median_returns_middle [(3:ℚ), 1, 2, 5] (List.cons_ne_nil _ _)).2 (by decide)]
  with_unfolding_all decide

/-- C10: the size-probe measurement builds a working set of
`max (bytes / 4) 1024` uint32 slots, so every requested size below 4096 bytes
is measured exactly as a 4096-byte working set would be; the grid's smallest
point, 2 KB, is such a point (its working set is 1024 slots = 4096 bytes, not
its nominal 2048). -/
theorem working_set_floor :
    (∀ b, b < 4096 → working_set_slots b = 1024) ∧
    (∀ b f k, b < 4096 →
      measure_ns_per_access_random_cycle b f k
        = measure_ns_per_access_random_cycle 4096 f k) ∧
    2048 ∈ make_sizes_grid ∧ working_set_slots 2048 * 4 = 4096 := by
  refine ⟨?_, ?_, by decide, by decide⟩
  · intro b hb
    unfold working_set_slots
    omega
  · intro b f k hb
    unfold measure_ns_per_access_random_cycle
    have hsl : working_set_slots b = working_set_slots 4096 := by
      unfold working_set_slots
      omega
    rw [hsl]

/-- C10 witness: the 2048-byte grid point. -/
theorem working_set_floor_witness :
    working_set_slots 2048 = 1024 ∧
    measure_ns_per_access_random_cycle 2048 (fun _ t => (t : ℚ)) 1
      = measure_ns_per_access_random_cycle 4096 (fun _ t => (t : ℚ)) 1 :=
  ⟨working_set_floor.1 2048 (by decide),
   working_set_floor.2.1 2048 (fun _ t => (t : ℚ)) 1 (by decide)⟩

/-- C7: with the synthetic latency (1 ns at or below 32 KiB, 4 ns above), the
size sweep over the standard grid followed by the strict detector reports a
boundary of exactly 32 KiB = 32768 bytes, which is itself a grid point. -/
theorem size_sweep_detects_32KiB :
    detect_jump_bytes (sizeSweepPoints synthLatency) = 32768 ∧
    32768 ∈ make_sizes_grid :=
  ⟨by with_unfolding_all decide, by decide⟩

/-- C4 counterexample: with the synthetic latency growing linearly beyond way
8, the associativity sweep still measures all 32 candidates — the point for
candidate 32 is in the sequence — instead of stopping at way 8 or 9. -/
theorem assoc_sweep_runs_to_ceiling :
    (assocSweepPoints linGrowth).length = 32 ∧
    (∃ p ∈ assocSweepPoints linGrowth, p.bytes = 32) := by
  refine ⟨by simp [assocSweepPoints], ⟨⟨32, linGrowth 32⟩, ?_, rfl⟩⟩
  with_unfolding_all decide

/-- C4 (amended): the associativity sweep has no early-exit rule: it measures
every candidate way-count 1..32 unconditionally and hands the full sequence
to the strict detector, which — not the sweep loop — reports way 8 for the
synthetic latency growing linearly beyond way 8. -/
theorem assoc_sweep_all_candidates :
    (∀ ns, (assocSweepPoints ns).map SizePoint.bytes = (List.range 32).map (· + 1)) ∧
    detect_associativity_L1 linGrowth = 8 := by
  constructor
  · intro ns
    simp [assocSweepPoints]
  · with_unfolding_all decide

/-- C3 counterexample: the stride probe does not aggregate by median — with
per-trial values 1, 2, 3 it returns the minimum 1 while their median is 2. -/
theorem stride_probe_not_median :
    measure_stride false 10 4096 64 (fun t => (t : ℚ) + 1) 3
      ≠ ((median ((List.range 3).map (fun t => (t : ℚ) + 1)) : ℚ) : WithTop ℚ) := by
  with_unfolding_all decide

/-- C3 (amended): the size and associativity probes aggregate their per-trial
ns-per-access values by returning the median (with a per-trial warmup before
each timed interval); the stride probe instead returns the minimum across
trials (with a single warmup before the first trial). -/
theorem measurement_aggregation (bytes : ℕ) (f : ℕ → ℕ → ℚ) (g : ℕ → ℚ)
    (k mib pg st : ℕ) (h2 : 2 ≤ stride_count mib pg st) :
    measure_ns_per_access_random_cycle bytes f k
      = median ((List.range k).map (f (working_set_slots bytes))) ∧
    measure_set_conflict_ns_per_access false g k
      = median ((List.range k).map g) ∧
    measure_stride false mib pg st g k
      = (((List.range k).map g).min?).elim ⊤ (fun m => ((m : ℚ) : WithTop ℚ)) := by
  refine ⟨rfl, rfl, ?_⟩
  unfold measure_stride
  have hfld : ((List.range k).map g).foldl
        (fun best x => min best ((x : ℚ) : WithTop ℚ)) ⊤
      = (List.range k).foldl (fun best t => min best ((g t : ℚ) : WithTop ℚ)) ⊤ := by
    rw [List.foldl_map]
  rw [if_neg (by simp), if_neg (by omega), ← hfld]
  exact foldl_min_withTop _

/-- C3 witness: three trials with values 1, 2, 3 on each probe. -/
theorem measurement_aggregation_witness :
    measure_ns_per_access_random_cycle 2048 (fun _ t => (t : ℚ) + 1) 3
      = median ((List.range 3).map ((fun _ t => (t : ℚ) + 1) (working_set_slots 2048))) ∧
    measure_set_conflict_ns_per_access false (fun t => (t : ℚ) + 1) 3
      = median ((List.range 3).map (fun t => (t : ℚ) + 1)) ∧
    measure_stride false 10 4096 64 (fun t => (t : ℚ) + 1) 3
      = (((List.range 3).map (fun t => (t : ℚ) + 1)).min?).elim ⊤
          (fun m => ((m : ℚ) : WithTop ℚ)) :=
  measurement_aggregation 2048 (fun _ t => (t : ℚ) + 1) (fun t => (t : ℚ) + 1)
    3 10 4096 64 (by decide)

/-- C6 counterexample: when allocation fails, the stride measurement reports
1 ns/access — a plausible valid latency, not the zero/invalid sentinel the
claim requires. -/
theorem stride_alloc_failure_not_zero :
    measure_stride true 10 4096 64 (fun _ => 5) 3 = ((1:ℚ) : WithTop ℚ) ∧
    ((1:ℚ) : WithTop ℚ) ≠ ((0:ℚ) : WithTop ℚ) := by
  refine ⟨rfl, ?_⟩
  simp

/-- C6 (amended): on allocation failure the associativity measurement reports
0 and its sweep continues over all candidates; the stride measurement instead
reports 1 (a valid-looking latency, not a zero/invalid sentinel) and
continues; the size probe performs no allocation-failure check at all (a
failed `std::vector` allocation raises an exception instead). -/
theorem alloc_failure_behavior (f : ℕ → ℚ) (k mib pg st : ℕ) (fail : ℕ → Bool) :
    measure_set_conflict_ns_per_access true f k = 0 ∧
    measure_stride true mib pg st f k = ((1:ℚ) : WithTop ℚ) ∧
    (assocSweepPoints (fun j => measure_set_conflict_ns_per_access (fail j) f k)).length
      = 32 := by
  refine ⟨rfl, rfl, by simp [assocSweepPoints]⟩
